import Mathlib

/-!
Shallow embedding of `service/flow_helpers/account.go` (package `flow_helpers`)
of the flow-pds repository, and verification of the spec's claims about it.

Modelling conventions:
* `flow.Address` is an opaque identifier; modelled as `Nat`.
* Go maps are modelled as total functions into `Option`; Go's nil map reads
  as an empty map and the lazy `make(...)` initializations in the source are
  behaviourally the identity, so the nil-map checks disappear.
* Go `uint64` values are `Nat`s below `2^64`; the `++` increment is taken
  modulo `2^64` exactly where the source increments a `uint64`.
* Go `int` values (key indexes) are `Int`.
* Run-time panics (nil-pointer dereference, index out of range,
  `rand.Intn` with non-positive argument) are explicit `GoPanic` outcomes.
* The pseudo-random source behind `rand.Intn` is an oracle `Nat` argument
  `rnd`; `rand.Intn n` returns some value of `[0, n)` and is modelled as
  `rnd % n`, which ranges over exactly those values as `rnd` does.
* The state touched by each function (the `accounts` registry, an
  `Account`'s rotation cursor, the `seqNumMap` cache) is passed and
  returned explicitly; the mutexes in the source serialize these
  read-modify-write sections, so each call is one atomic state transition.
-/

/-- Opaque ledger address (`flow.Address`). -/
abbrev Address := Nat

/-- Run-time panics that the Go code in `account.go` can hit. -/
inductive GoPanic where
  /-- `rand.Intn` called with `n <= 0`. -/
  | intnNonPositive
  /-- Slice index out of range. -/
  | indexOutOfRange
  /-- Nil-pointer dereference. -/
  | nilPointerDereference
deriving Repr, DecidableEq

/-- The `Account` struct of `account.go`:
address, hex private key, configured key indexes, and the rotation cursor
`nextKeyIndexIndex` (an index into `KeyIndexes`). -/
structure Account where
  Address : Address
  PrivateKeyInHex : String
  KeyIndexes : List Int
  nextKeyIndexIndex : Nat
deriving Repr, DecidableEq

/-- Go's `rand.Intn`: panics when `n <= 0`, otherwise returns a
pseudo-random value in `[0, n)`; the randomness is the oracle `rnd`. -/
def randIntn (rnd : Nat) (n : Nat) : Except GoPanic Nat :=
  if n = 0 then .error .intnNonPositive else .ok (rnd % n)

/-- Point update of a registry map (`accounts[address] = new`). -/
def mapUpdate (m : Address → Option Account) (k : Address) (v : Account) :
    Address → Option Account :=
  fun x => if x = k then some v else m x

/-- The empty `accounts` registry (Go's nil map reads as empty). -/
def emptyAccounts : Address → Option Account := fun _ => none

/-- `GetAccount` of `account.go`: returns the cached `Account` for
`address` if present, otherwise builds one whose rotation cursor starts at
`rand.Intn(len(keyIndexes))` and stores it.  The registry is threaded
explicitly; `rnd` is the random oracle consumed by `rand.Intn`. -/
def GetAccount (accounts : Address → Option Account) (address : Address)
    (privateKeyInHex : String) (keyIndexes : List Int) (rnd : Nat) :
    Except GoPanic (Account × (Address → Option Account)) :=
  match accounts address with
  | some existing => .ok (existing, accounts)
  | none =>
    match randIntn rnd keyIndexes.length with
    | .error p => .error p
    | .ok randomIndex =>
      let newAccount : Account :=
        { Address := address
          PrivateKeyInHex := privateKeyInHex
          KeyIndexes := keyIndexes
          nextKeyIndexIndex := randomIndex }
      .ok (newAccount, mapUpdate accounts address newAccount)

/-- `Account.KeyIndex` of `account.go`: reads
`a.KeyIndexes[a.nextKeyIndexIndex]` (panicking if out of range, as the Go
slice access does) and advances the cursor by one modulo
`len(a.KeyIndexes)`.  The modulo in the source can only execute after a
successful access, so its divisor is then non-zero. -/
def KeyIndex (a : Account) : Except GoPanic (Int × Account) :=
  match a.KeyIndexes.get? a.nextKeyIndexIndex with
  | none => .error .indexOutOfRange
  | some i =>
    .ok (i, { a with nextKeyIndexIndex := (a.nextKeyIndexIndex + 1) % a.KeyIndexes.length })

/-- The fields of `flow.AccountKey` used by `account.go`: the key's index
on the account and its remote-observed sequence number (`uint64`). -/
structure AccountKey where
  Index : Int
  SequenceNumber : Nat
deriving Repr, DecidableEq

/-- The `seqNumMap` cache: `map[flow.Address]map[int]uint64`, flattened to
a total function (absent entry = `none`). -/
abbrev SeqNumMap := Address → Int → Option Nat

/-- The empty `seqNumMap` (Go's nil maps read as empty). -/
def emptySeqMap : SeqNumMap := fun _ _ => none

/-- Point update `seqNumMap[address][idx] = v`. -/
def seqSet (m : SeqNumMap) (address : Address) (idx : Int) (v : Nat) : SeqNumMap :=
  fun b j => if b = address ∧ j = idx then some v else m b j

/-- `getSeqNum` of `account.go`: if a cached value `prev` exists for
`(address, key.Index)` and `prev >= key.SequenceNumber`, increment the
entry (a `uint64` increment, hence modulo `2^64`); otherwise store
`key.SequenceNumber`.  Returns the entry after the update together with
the updated cache. -/
def getSeqNum (m : SeqNumMap) (address : Address) (key : AccountKey) :
    Nat × SeqNumMap :=
  let next : Nat :=
    match m address key.Index with
    | some prev =>
      if key.SequenceNumber ≤ prev then (prev + 1) % 2 ^ 64 else key.SequenceNumber
    | none => key.SequenceNumber
  (next, seqSet m address key.Index next)

/-- The part of a remote `flow.Account` that `GetProposalKey` touches. -/
structure RemoteAccount where
  Keys : List AccountKey
deriving Repr, DecidableEq

/-- Result of the remote `flowClient.GetAccount(ctx, address)` call,
supplied as an input to the embedding: the Go convention is a
`(value, error)` pair, a failed query yielding `(nil, err)`. -/
structure RemoteResult where
  account : Option RemoteAccount
  err : Option String
deriving Repr, DecidableEq

/-- Outcome of a Go function returning `(value, error)`: a value, a
returned error, or a panic. -/
inductive GoResult (α : Type) where
  | ok (a : α)
  | err (msg : String)
  | panicked (p : GoPanic)
deriving Repr, DecidableEq

/-- `Account.GetProposalKey` of `account.go`.  The source reads

`k := account.Keys[a.KeyIndex()]`

before checking the error of the remote query, so a failed query
(`account = nil`) dereferences a nil pointer and panics; only afterwards
does it check `err`, and only then does it stamp the key with
`getSeqNum`.  (The relative order of the nil-pointer panic and the
rotator call inside that one expression is compiler-dependent; no theorem
below depends on it, and the panic is modelled as firing first.)  Returns
the outcome, the account as left behind (its cursor advanced whenever the
rotator ran), and the sequence cache as left behind. -/
def GetProposalKey (a : Account) (m : SeqNumMap) (remote : RemoteResult) :
    GoResult AccountKey × Account × SeqNumMap :=
  match remote.account with
  | none => (.panicked .nilPointerDereference, a, m)
  | some account =>
    match KeyIndex a with
    | .error p => (.panicked p, a, m)
    | .ok (i, a') =>
      if h : 0 ≤ i ∧ i.toNat < account.Keys.length then
        let k := account.Keys.get ⟨i.toNat, h.2⟩
        match remote.err with
        | some e => (.err ("error in flow_helpers.Account.GetProposalKey: " ++ e), a', m)
        | none =>
          let r := getSeqNum m a.Address k
          (.ok { k with SequenceNumber := r.1 }, a', r.2)
      else
        (.panicked .indexOutOfRange, a', m)

/-- `n` successive `KeyIndex` calls on `a`, collecting the returned key
indexes; stops at the first panic. -/
def runKeyIndex : Account → Nat → Except GoPanic (List Int × Account)
  | a, 0 => .ok ([], a)
  | a, n + 1 =>
    match KeyIndex a with
    | .error p => .error p
    | .ok (i, a') =>
      match runKeyIndex a' n with
      | .error p => .error p
      | .ok (is, a'') => .ok (i :: is, a'')

/-- Successive `getSeqNum` calls for the fixed pair `(address, idx)`, one
per remote-reported sequence number in the input list, collecting the
returned values and threading the cache. -/
def runSeqCalls (address : Address) (idx : Int) :
    SeqNumMap → List Nat → List Nat × SeqNumMap
  | m, [] => ([], m)
  | m, s :: rest =>
    let r := getSeqNum m address { Index := idx, SequenceNumber := s }
    let rr := runSeqCalls address idx r.2 rest
    (r.1 :: rr.1, rr.2)

/-! ## Helper lemmas about getSeqNum runs -/

/-- After a `getSeqNum` call, the cache entry for the pair equals the
returned value (the source returns `seqNumMap[address][key.Index]` after
the update). -/
lemma getSeqNum_entry_self (m : SeqNumMap) (address : Address) (key : AccountKey) :
    (getSeqNum m address key).2 address key.Index = some (getSeqNum m address key).1 := by
  simp [getSeqNum, seqSet]

/-- With no cache entry, `getSeqNum` returns the remote value. -/
lemma getSeqNum_of_none (m : SeqNumMap) (address : Address) (key : AccountKey)
    (hm : m address key.Index = none) :
    (getSeqNum m address key).1 = key.SequenceNumber := by
  simp [getSeqNum, hm]

/-- With a cache entry `prev` whose increment does not overflow, the
returned value strictly exceeds `prev` (it is `prev + 1` or the larger
remote value). -/
lemma getSeqNum_gt_prev (m : SeqNumMap) (address : Address) (key : AccountKey) (prev : Nat)
    (hm : m address key.Index = some prev) (hov : prev + 1 < 2 ^ 64) :
    prev < (getSeqNum m address key).1 := by
  by_cases hc : key.SequenceNumber ≤ prev
  · simp only [getSeqNum, hm, if_pos hc]
    rw [Nat.mod_eq_of_lt hov]
    omega
  · simp only [getSeqNum, hm, if_neg hc]
    omega

/-- With a cache entry `prev` at least the remote value, the returned
value is the (`uint64`) increment of `prev`. -/
lemma getSeqNum_incr_of_le (m : SeqNumMap) (address : Address) (key : AccountKey)
    (prev : Nat) (hm : m address key.Index = some prev)
    (hle : key.SequenceNumber ≤ prev) :
    (getSeqNum m address key).1 = (prev + 1) % 2 ^ 64 := by
  simp only [getSeqNum, hm, if_pos hle]

/-- With a cache entry `prev` strictly below the remote value, the
remote value is adopted and returned. -/
lemma getSeqNum_adopt_of_lt (m : SeqNumMap) (address : Address) (key : AccountKey)
    (prev : Nat) (hm : m address key.Index = some prev)
    (hlt : prev < key.SequenceNumber) :
    (getSeqNum m address key).1 = key.SequenceNumber := by
  simp only [getSeqNum, hm, if_neg (Nat.not_le.mpr hlt)]

/-- With a cache entry `prev`, the returned value is at most
`max (prev + 1) key.SequenceNumber`. -/
lemma getSeqNum_le_of_entry (m : SeqNumMap) (address : Address) (key : AccountKey) (prev : Nat)
    (hm : m address key.Index = some prev) :
    (getSeqNum m address key).1 ≤ max (prev + 1) key.SequenceNumber := by
  by_cases hc : key.SequenceNumber ≤ prev
  · simp only [getSeqNum, hm, if_pos hc]
    exact le_trans (Nat.mod_le _ _) (le_max_left _ _)
  · simp only [getSeqNum, hm, if_neg hc]
    exact le_max_right _ _

/-- Unfolding one call of a `runSeqCalls` run. -/
lemma runSeqCalls_fst_cons (address : Address) (idx : Int) (m : SeqNumMap)
    (s : Nat) (rest : List Nat) :
    (runSeqCalls address idx m (s :: rest)).1 =
      (getSeqNum m address ⟨idx, s⟩).1 ::
        (runSeqCalls address idx (getSeqNum m address ⟨idx, s⟩).2 rest).1 := rfl

/-- Core run lemma: when no call of the run can overflow (each remote
input, and any pre-existing entry, is below `2^64` minus the number of
calls), the outputs of a run for a fixed pair are strictly increasing,
and every output exceeds any pre-existing cache entry. -/
lemma runSeqCalls_chain_aux (address : Address) (idx : Int) (ss : List Nat) :
    ∀ m : SeqNumMap,
      (∀ s ∈ ss, s + ss.length < 2 ^ 64) →
      (∀ prev, m address idx = some prev → prev + ss.length < 2 ^ 64) →
      List.Chain' (· < ·) (runSeqCalls address idx m ss).1 ∧
      ∀ prev, m address idx = some prev →
        ∀ b ∈ ((runSeqCalls address idx m ss).1).head?, prev < b := by
  induction ss with
  | nil =>
    intro m _ _
    refine ⟨by simp [runSeqCalls], ?_⟩
    intro prev _ b hb
    simp [runSeqCalls] at hb
  | cons s rest ih =>
    intro m hss hm
    have hentry : (getSeqNum m address ⟨idx, s⟩).2 address idx =
        some (getSeqNum m address ⟨idx, s⟩).1 :=
      getSeqNum_entry_self m address ⟨idx, s⟩
    have hslen : s + (rest.length + 1) < 2 ^ 64 := by
      have := hss s (by simp)
      simpa using this
    have hvbound : (getSeqNum m address ⟨idx, s⟩).1 + rest.length < 2 ^ 64 := by
      cases hcase : m address idx with
      | none =>
        have h : (getSeqNum m address ⟨idx, s⟩).1 = s :=
          getSeqNum_of_none m address ⟨idx, s⟩ hcase
        rw [h]
        omega
      | some prev =>
        have hub : (getSeqNum m address ⟨idx, s⟩).1 ≤ max (prev + 1) s :=
          getSeqNum_le_of_entry m address ⟨idx, s⟩ prev hcase
        have h1 := hm prev hcase
        simp only [List.length_cons] at h1
        omega
    have ihres := ih (getSeqNum m address ⟨idx, s⟩).2
      (fun t ht => by have := hss t (by simp [ht]); simp only [List.length_cons] at this; omega)
      (fun prev hp => by
        rw [hentry] at hp
        injection hp with hp
        omega)
    constructor
    · rw [runSeqCalls_fst_cons, List.chain'_cons']
      exact ⟨fun y hy => ihres.2 _ hentry y hy, ihres.1⟩
    · intro prev hp b hb
      rw [runSeqCalls_fst_cons] at hb
      simp only [List.head?_cons, Option.mem_def, Option.some.injEq] at hb
      subst hb
      exact getSeqNum_gt_prev m address ⟨idx, s⟩ prev hp
        (by have := hm prev hp; simp only [List.length_cons] at this; omega)

/-! ## Claim C1: GetAccount with an empty keyIndexes list -/

/-- Claim C1, counterexample: at the concrete input (empty registry, empty
`keyIndexes` list), `GetAccount` panics — the source calls
`rand.Intn(len(keyIndexes))` with argument 0 — rather than failing with an
`InvalidConfiguration` error as the claim states (its Go signature has no
error return at all). -/
theorem getAccount_empty_keyIndexes_panics_cex :
    GetAccount emptyAccounts 1 "" [] 0 = .error .intnNonPositive := rfl

/-- Claim C1, amended: for every call to `GetAccount` with an empty
`keyIndexes` list for an address not yet in the registry, the call panics
in the random cursor initialization (`rand.Intn(0)`); it does not return
an `InvalidConfiguration` error (no error return exists), and the empty
list never reaches the rotator. -/
theorem getAccount_empty_keyIndexes_panics
    (accounts : Address → Option Account) (address : Address)
    (pk : String) (rnd : Nat) (h : accounts address = none) :
    GetAccount accounts address pk [] rnd = .error .intnNonPositive := by
  simp [GetAccount, h, randIntn]

/-- Witness for the amended C1 theorem at a concrete input. -/
theorem getAccount_empty_keyIndexes_panics_witness :
    emptyAccounts 1 = none ∧
    GetAccount emptyAccounts 1 "" [] 0 = .error .intnNonPositive :=
  ⟨rfl, getAccount_empty_keyIndexes_panics emptyAccounts 1 "" 0 rfl⟩

/-! ## Claim C2: GetProposalKey when the remote query fails -/

/-- Claim C2, code-bug evaluation: when the remote query fails — Go
convention `(nil, err)` — `GetProposalKey` panics with a nil-pointer
dereference instead of returning the wrapped error, because the source
indexes `account.Keys` before checking `err`.  The sequence cache (and
the account) is left unmutated, but no error ever reaches the caller. -/
theorem getProposalKey_remote_failure_panics
    (a : Account) (m : SeqNumMap) (e : String) :
    GetProposalKey a m ⟨none, some e⟩ = (.panicked .nilPointerDereference, a, m) := rfl

/-! ## Claim C3: monotonicity of the sequence allocator -/

/-- Claim C3, counterexample: for the pair `(1, 0)`, two successive calls
with remote inputs `2^64 - 1` then `0` return `2^64 - 1` then `0` — the
second call finds `cached = 2^64 - 1 >= 0 = remote` and the `uint64`
increment wraps to `0` — so the returned values are neither non-decreasing
nor, at the second call (where `cached >= remote` holds), strictly
greater than the previous value. -/
theorem getSeqNum_monotonic_overflow_cex :
    (runSeqCalls 1 0 emptySeqMap [2 ^ 64 - 1, 0]).1 = [2 ^ 64 - 1, 0] ∧
    ¬ List.Chain' (· ≤ ·) (runSeqCalls 1 0 emptySeqMap [2 ^ 64 - 1, 0]).1 := by
  constructor
  · decide
  · intro h
    have he : (runSeqCalls 1 0 emptySeqMap [2 ^ 64 - 1, 0]).1 = [2 ^ 64 - 1, 0] := by decide
    rw [he, List.chain'_cons] at h
    exact absurd h.1 (by decide)

/-- Claim C3, amended: for a fixed pair, a run of `N` calls with
arbitrary remote inputs produces non-decreasing (indeed, after the first
call strictly increasing, so in particular strictly increasing whenever
`cached >= remote`) return values, provided no `uint64` wraparound can
occur: each remote input, and any pre-existing cached value for the
pair, is below `2^64 - N`.  Without that proviso the increment of a
cached `2^64 - 1` wraps to `0` and the sequence decreases. -/
theorem getSeqNum_run_monotonic (address : Address) (idx : Int) (ss : List Nat)
    (m : SeqNumMap)
    (hss : ∀ s ∈ ss, s + ss.length < 2 ^ 64)
    (hm : ∀ prev, m address idx = some prev → prev + ss.length < 2 ^ 64) :
    List.Chain' (· ≤ ·) (runSeqCalls address idx m ss).1 ∧
    List.Chain' (· < ·) (runSeqCalls address idx m ss).1 := by
  have h := runSeqCalls_chain_aux address idx ss m hss hm
  exact ⟨h.1.imp fun _ _ hab => Nat.le_of_lt hab, h.1⟩

/-- Witness for the amended C3 theorem: the run `[5, 3, 10]` from an
empty cache returns `[5, 6, 10]`, non-decreasing and strictly
increasing. -/
theorem getSeqNum_run_monotonic_witness :
    (∀ s ∈ ([5, 3, 10] : List Nat), s + ([5, 3, 10] : List Nat).length < 2 ^ 64) ∧
    (∀ prev, emptySeqMap 1 0 = some prev →
      prev + ([5, 3, 10] : List Nat).length < 2 ^ 64) ∧
    (runSeqCalls 1 0 emptySeqMap [5, 3, 10]).1 = [5, 6, 10] ∧
    List.Chain' (· ≤ ·) (runSeqCalls 1 0 emptySeqMap [5, 3, 10]).1 ∧
    List.Chain' (· < ·) (runSeqCalls 1 0 emptySeqMap [5, 3, 10]).1 :=
  ⟨by decide, fun prev h => by simp [emptySeqMap] at h, by decide,
    (getSeqNum_run_monotonic 1 0 [5, 3, 10] emptySeqMap (by decide)
      (fun prev h => by simp [emptySeqMap] at h)).1,
    (getSeqNum_run_monotonic 1 0 [5, 3, 10] emptySeqMap (by decide)
      (fun prev h => by simp [emptySeqMap] at h)).2⟩

/-! ## Claim C4: getSeqNum with an existing cache entry -/

/-- Claim C4: for a pair with an existing cache entry `prev`: if
`prev >= S` (the remote-reported number) the entry is incremented by
exactly one — the `uint64` increment of the source, i.e. modulo `2^64` —
and the new value is returned (cached 5, remote 3 gives 6); otherwise the
entry becomes `S` and `S` is returned unincremented (cached 5, remote 10
gives 10). -/
theorem getSeqNum_cached_step
    (m : SeqNumMap) (address : Address) (idx : Int) (prev S : Nat)
    (hm : m address idx = some prev) :
    (S ≤ prev →
      (getSeqNum m address ⟨idx, S⟩).1 = (prev + 1) % 2 ^ 64 ∧
      (getSeqNum m address ⟨idx, S⟩).2 address idx = some ((prev + 1) % 2 ^ 64)) ∧
    (prev < S →
      (getSeqNum m address ⟨idx, S⟩).1 = S ∧
      (getSeqNum m address ⟨idx, S⟩).2 address idx = some S) := by
  constructor
  · intro hcmp
    simp [getSeqNum, seqSet, hm, if_pos hcmp]
  · intro hcmp
    simp [getSeqNum, seqSet, hm, if_neg (Nat.not_le.mpr hcmp)]

/-- Witness for C4 at the claim's own concrete inputs: cached 5 with
remote 3 returns 6; cached 5 with remote 10 returns 10. -/
theorem getSeqNum_cached_step_witness :
    seqSet emptySeqMap 1 0 5 1 0 = some 5 ∧
    (getSeqNum (seqSet emptySeqMap 1 0 5) 1 ⟨0, 3⟩).1 = 6 ∧
    (getSeqNum (seqSet emptySeqMap 1 0 5) 1 ⟨0, 10⟩).1 = 10 :=
  ⟨rfl,
    by
      have h := (getSeqNum_cached_step (seqSet emptySeqMap 1 0 5) 1 0 5 3 rfl).1
        (by decide)
      simpa using h.1,
    ((getSeqNum_cached_step (seqSet emptySeqMap 1 0 5) 1 0 5 10 rfl).2 (by decide)).1⟩

/-! ## Claim C5: first use of a pair trusts the remote value -/

/-- Claim C5: for a pair with no existing cache entry, the first
`getSeqNum` call with remote-reported number `S` stores `S` as the
baseline and returns exactly `S`. -/
theorem getSeqNum_first_use
    (m : SeqNumMap) (address : Address) (idx : Int) (S : Nat)
    (hm : m address idx = none) :
    (getSeqNum m address ⟨idx, S⟩).1 = S ∧
    (getSeqNum m address ⟨idx, S⟩).2 address idx = some S := by
  simp [getSeqNum, seqSet, hm]

/-- Witness for C5 at a concrete input. -/
theorem getSeqNum_first_use_witness :
    emptySeqMap 1 0 = none ∧
    (getSeqNum emptySeqMap 1 ⟨0, 42⟩).1 = 42 ∧
    (getSeqNum emptySeqMap 1 ⟨0, 42⟩).2 1 0 = some 42 :=
  ⟨rfl, (getSeqNum_first_use emptySeqMap 1 0 42 rfl).1,
    (getSeqNum_first_use emptySeqMap 1 0 42 rfl).2⟩

/-! ## Helper lemmas about rotator runs -/

/-- A `KeyIndex` call with an in-bounds cursor returns the element at the
cursor and advances the cursor by one modulo the list length. -/
lemma KeyIndex_ok (ad : Address) (pk : String) (ks : List Int) (c : Nat)
    (hc : c < ks.length) :
    KeyIndex ⟨ad, pk, ks, c⟩ =
      .ok (ks.get ⟨c, hc⟩, ⟨ad, pk, ks, (c + 1) % ks.length⟩) := by
  simp [KeyIndex, List.getElem?_eq_getElem hc]

/-- `KeyIndex_ok`, stated on an undestructured account. -/
lemma KeyIndex_ok' (a : Account) (hc : a.nextKeyIndexIndex < a.KeyIndexes.length) :
    KeyIndex a = .ok (a.KeyIndexes.get ⟨a.nextKeyIndexIndex, hc⟩,
      { a with nextKeyIndexIndex := (a.nextKeyIndexIndex + 1) % a.KeyIndexes.length }) := by
  simp [KeyIndex, List.getElem?_eq_getElem hc]

/-- Splicing two successful rotator runs. -/
lemma runKeyIndex_append :
    ∀ (p : Nat) (a : Account) (is1 : List Int) (a' : Account),
      runKeyIndex a p = .ok (is1, a') →
      ∀ (q : Nat) (is2 : List Int) (a'' : Account),
        runKeyIndex a' q = .ok (is2, a'') →
        runKeyIndex a (p + q) = .ok (is1 ++ is2, a'') := by
  intro p
  induction p with
  | zero =>
    intro a is1 a' h1 q is2 a'' h2
    simp only [runKeyIndex, Except.ok.injEq, Prod.mk.injEq] at h1
    obtain ⟨h1a, h1b⟩ := h1
    subst h1a; subst h1b
    simpa using h2
  | succ p ih =>
    intro a is1 a' h1 q is2 a'' h2
    rw [show p + 1 + q = p + q + 1 from by omega]
    cases hk : KeyIndex a with
    | error e =>
      simp only [runKeyIndex, hk] at h1
      exact absurd h1 (by simp)
    | ok pr =>
      obtain ⟨i, b⟩ := pr
      cases hr : runKeyIndex b p with
      | error e =>
        simp only [runKeyIndex, hk, hr] at h1
        exact absurd h1 (by simp)
      | ok pr2 =>
        obtain ⟨is0, c⟩ := pr2
        simp only [runKeyIndex, hk, hr, Except.ok.injEq, Prod.mk.injEq] at h1
        obtain ⟨h1a, h1b⟩ := h1
        subst h1b
        subst h1a
        have h3 := ih b is0 c hr q is2 a'' h2
        simp only [runKeyIndex, hk, h3, List.cons_append]

/-- A rotator run that stays inside one pass over the list: starting at
cursor `c` and taking `n` steps with `c + n <= len` returns the `n`
elements from position `c` on and leaves the cursor at `(c + n) % len`. -/
lemma runKeyIndex_segment (ad : Address) (pk : String) (ks : List Int) :
    ∀ (n c : Nat), c < ks.length → c + n ≤ ks.length →
      runKeyIndex ⟨ad, pk, ks, c⟩ n =
        .ok ((ks.drop c).take n, ⟨ad, pk, ks, (c + n) % ks.length⟩) := by
  intro n
  induction n with
  | zero =>
    intro c hc _
    simp [runKeyIndex, Nat.mod_eq_of_lt hc]
  | succ n ih =>
    intro c hc hcn
    by_cases h1 : c + 1 < ks.length
    · have h2 := ih (c + 1) h1 (by omega)
      simp only [runKeyIndex, KeyIndex_ok ad pk ks c hc, Nat.mod_eq_of_lt h1, h2]
      rw [List.drop_eq_getElem_cons hc, List.take_succ_cons]
      rw [show c + 1 + n = c + (n + 1) from by omega]
      simp [List.get_eq_getElem]
    · have hEq : c + 1 = ks.length := by omega
      have hn : n = 0 := by omega
      subst hn
      simp only [runKeyIndex, KeyIndex_ok ad pk ks c hc]
      rw [List.drop_eq_getElem_cons hc, List.take_succ_cons, List.take_zero]
      simp [List.get_eq_getElem]

/-- One full pass of the rotator: `len` calls from an in-bounds cursor
`c` return the rotation of the list by `c` and restore the cursor. -/
lemma runKeyIndex_cycle (ad : Address) (pk : String) (ks : List Int) (c : Nat)
    (hc : c < ks.length) :
    runKeyIndex ⟨ad, pk, ks, c⟩ ks.length = .ok (ks.rotate c, ⟨ad, pk, ks, c⟩) := by
  have hlen : 0 < ks.length := Nat.lt_of_le_of_lt (Nat.zero_le _) hc
  have h1 := runKeyIndex_segment ad pk ks (ks.length - c) c hc (by omega)
  rw [show c + (ks.length - c) = ks.length from by omega, Nat.mod_self] at h1
  have h2 := runKeyIndex_segment ad pk ks c 0 hlen (by omega)
  rw [show (0 + c) % ks.length = c from by rw [Nat.zero_add, Nat.mod_eq_of_lt hc]] at h2
  have h3 := runKeyIndex_append (ks.length - c) _ _ _ h1 c _ _ h2
  rw [show ks.length - c + c = ks.length from by omega] at h3
  rw [h3, List.rotate_eq_drop_append_take (Nat.le_of_lt hc)]
  congr 1
  rw [List.take_of_length_le (by simp), List.drop_zero]

/-- `k` full passes of the rotator return `k` copies of the rotated list
and restore the cursor. -/
lemma runKeyIndex_cycles (ad : Address) (pk : String) (ks : List Int) (c : Nat)
    (hc : c < ks.length) (k : Nat) :
    runKeyIndex ⟨ad, pk, ks, c⟩ (k * ks.length) =
      .ok ((List.replicate k (ks.rotate c)).flatten, ⟨ad, pk, ks, c⟩) := by
  induction k with
  | zero => simp [runKeyIndex]
  | succ k ih =>
    have h := runKeyIndex_append ks.length _ _ _ (runKeyIndex_cycle ad pk ks c hc)
      (k * ks.length) _ _ ih
    rw [show ks.length + k * ks.length = (k + 1) * ks.length from by ring] at h
    rw [h, List.replicate_succ, List.flatten_cons]

/-! ## Claim C6: round-robin rotation fairness -/

/-- Claim C6: each `KeyIndex` call returns the index stored at the
current cursor and advances the cursor by one modulo the list length;
over `k * len(KeyIndexes)` calls (starting from any in-bounds cursor) the
outputs are exactly `k` back-to-back copies of the list as rotated to the
starting cursor — so each list position is returned exactly `k` times, in
round-robin order — and the cursor ends where it started.  The rotation
is a permutation of the key-index list. -/
theorem keyIndex_rotation_fair (a : Account) (k : Nat)
    (hc : a.nextKeyIndexIndex < a.KeyIndexes.length) :
    KeyIndex a = .ok (a.KeyIndexes.get ⟨a.nextKeyIndexIndex, hc⟩,
      { a with nextKeyIndexIndex := (a.nextKeyIndexIndex + 1) % a.KeyIndexes.length }) ∧
    runKeyIndex a (k * a.KeyIndexes.length) =
      .ok ((List.replicate k (a.KeyIndexes.rotate a.nextKeyIndexIndex)).flatten, a) ∧
    (a.KeyIndexes.rotate a.nextKeyIndexIndex).Perm a.KeyIndexes := by
  obtain ⟨ad, pk, ks, c⟩ := a
  exact ⟨KeyIndex_ok ad pk ks c hc, runKeyIndex_cycles ad pk ks c hc k,
    List.rotate_perm ks c⟩

/-- Witness for C6: the account with key indexes `[10, 20, 30]` and
cursor 1; two full passes (6 calls) return `[20, 30, 10, 20, 30, 10]` —
each index exactly twice, round-robin from the cursor — and restore the
cursor. -/
theorem keyIndex_rotation_fair_witness :
    (1 < ([10, 20, 30] : List Int).length) ∧
    (KeyIndex ⟨1, "pk", [10, 20, 30], 1⟩ = .ok (20, ⟨1, "pk", [10, 20, 30], 2⟩) ∧
      runKeyIndex ⟨1, "pk", [10, 20, 30], 1⟩ 6 =
        .ok ([20, 30, 10, 20, 30, 10], ⟨1, "pk", [10, 20, 30], 1⟩) ∧
      ([20, 30, 10] : List Int).Perm [10, 20, 30]) :=
  ⟨by decide, keyIndex_rotation_fair ⟨1, "pk", [10, 20, 30], 1⟩ 2 (by decide)⟩

/-! ## Claim C7: GetAccount for an already-registered address -/

/-- Claim C7: if an `Account` already exists in the registry for
`address`, `GetAccount` returns that existing account unchanged and
leaves the registry untouched; the credential and `keyIndexes` arguments
of the call are ignored and the rotation cursor is not reset. -/
theorem getAccount_existing_unchanged
    (accounts : Address → Option Account) (address : Address)
    (pk : String) (kis : List Int) (rnd : Nat) (acct : Account)
    (h : accounts address = some acct) :
    GetAccount accounts address pk kis rnd = .ok (acct, accounts) := by
  simp [GetAccount, h]

/-- Witness for C7: a second call with different credential and key list
returns the stored account (cursor included) and the same registry. -/
theorem getAccount_existing_unchanged_witness :
    mapUpdate emptyAccounts 1 ⟨1, "k", [7, 8], 1⟩ 1 = some ⟨1, "k", [7, 8], 1⟩ ∧
    GetAccount (mapUpdate emptyAccounts 1 ⟨1, "k", [7, 8], 1⟩) 1 "other" [9] 5 =
      .ok (⟨1, "k", [7, 8], 1⟩, mapUpdate emptyAccounts 1 ⟨1, "k", [7, 8], 1⟩) :=
  ⟨rfl, getAccount_existing_unchanged _ 1 "other" [9] 5 _ rfl⟩

/-! ## Claim C8: cursor initialization and in-bounds invariant -/

/-- Claim C8: a freshly created `Account` keeps the given key-index list
and starts with cursor `rnd % len` (the modelled `rand.Intn`), which lies
in `[0, len)`; and every successful `KeyIndex` call preserves the list
unchanged and leaves the cursor within `[0, len)`. -/
theorem account_cursor_in_bounds :
    (∀ (accounts : Address → Option Account) (address : Address) (pk : String)
        (kis : List Int) (rnd : Nat) (acct : Account) (m' : Address → Option Account),
        accounts address = none →
        GetAccount accounts address pk kis rnd = .ok (acct, m') →
        acct.KeyIndexes = kis ∧ acct.nextKeyIndexIndex = rnd % kis.length ∧
          acct.nextKeyIndexIndex < kis.length) ∧
    (∀ (a : Account) (i : Int) (a' : Account),
        KeyIndex a = .ok (i, a') →
        a'.KeyIndexes = a.KeyIndexes ∧ a'.nextKeyIndexIndex < a.KeyIndexes.length) := by
  constructor
  · intro accounts address pk kis rnd acct m' h hok
    rw [GetAccount, h] at hok
    by_cases hk : kis.length = 0
    · rw [randIntn, if_pos hk] at hok
      exact absurd hok (by simp)
    · rw [randIntn, if_neg hk] at hok
      simp only [Except.ok.injEq, Prod.mk.injEq] at hok
      obtain ⟨h1, _⟩ := hok
      subst h1
      exact ⟨rfl, rfl, Nat.mod_lt _ (Nat.pos_of_ne_zero hk)⟩
  · intro a i a' hok
    rw [KeyIndex] at hok
    cases hg : a.KeyIndexes.get? a.nextKeyIndexIndex with
    | none => rw [hg] at hok; exact absurd hok (by simp)
    | some j =>
      rw [hg] at hok
      simp only [Except.ok.injEq, Prod.mk.injEq] at hok
      obtain ⟨_, h2⟩ := hok
      subst h2
      have hlen : a.nextKeyIndexIndex < a.KeyIndexes.length :=
        List.get?_eq_some.mp hg |>.1
      exact ⟨rfl, Nat.mod_lt _ (Nat.lt_of_le_of_lt (Nat.zero_le _) hlen)⟩

/-- Witness for C8: a fresh account for address 1 with key list
`[10, 20, 30]` and random oracle 7 starts at cursor `7 % 3 = 1`, and one
rotation call moves the cursor to 2, still in bounds, list unchanged. -/
theorem account_cursor_in_bounds_witness :
    (emptyAccounts 1 = none ∧
      GetAccount emptyAccounts 1 "pk" [10, 20, 30] 7 =
        .ok (⟨1, "pk", [10, 20, 30], 1⟩,
          mapUpdate emptyAccounts 1 ⟨1, "pk", [10, 20, 30], 1⟩)) ∧
    ((⟨1, "pk", [10, 20, 30], 1⟩ : Account).KeyIndexes = [10, 20, 30] ∧
      (⟨1, "pk", [10, 20, 30], 1⟩ : Account).nextKeyIndexIndex =
        7 % ([10, 20, 30] : List Int).length ∧
      (⟨1, "pk", [10, 20, 30], 1⟩ : Account).nextKeyIndexIndex <
        ([10, 20, 30] : List Int).length) ∧
    (KeyIndex ⟨1, "pk", [10, 20, 30], 1⟩ = .ok (20, ⟨1, "pk", [10, 20, 30], 2⟩) ∧
      (⟨1, "pk", [10, 20, 30], 2⟩ : Account).KeyIndexes =
        (⟨1, "pk", [10, 20, 30], 1⟩ : Account).KeyIndexes ∧
      (⟨1, "pk", [10, 20, 30], 2⟩ : Account).nextKeyIndexIndex <
        (⟨1, "pk", [10, 20, 30], 1⟩ : Account).KeyIndexes.length) :=
  ⟨⟨rfl, rfl⟩,
    account_cursor_in_bounds.1 emptyAccounts 1 "pk" [10, 20, 30] 7 _ _ rfl rfl,
    ⟨rfl, account_cursor_in_bounds.2 ⟨1, "pk", [10, 20, 30], 1⟩ 20
      ⟨1, "pk", [10, 20, 30], 2⟩ rfl⟩⟩

/-! ## Helper lemmas for runs with a fixed remote input -/

/-- A run of `N` calls with a fixed remote input `S`, starting from a
cache entry `c >= S` whose increments cannot overflow, returns exactly
`c + 1, c + 2, ..., c + N`. -/
lemma runSeqCalls_incr_run (address : Address) (idx : Int) (S : Nat) :
    ∀ (N : Nat) (m : SeqNumMap) (c : Nat),
      m address idx = some c → S ≤ c → c + N < 2 ^ 64 →
      (runSeqCalls address idx m (List.replicate N S)).1 =
        (List.range N).map (fun j => c + 1 + j) := by
  intro N
  induction N with
  | zero => intro m c _ _ _; rfl
  | succ N ih =>
    intro m c hm hSc hov
    rw [List.replicate_succ, runSeqCalls_fst_cons]
    have hval : (getSeqNum m address ⟨idx, S⟩).1 = c + 1 := by
      simp only [getSeqNum, hm, if_pos hSc]
      exact Nat.mod_eq_of_lt (by omega)
    have hent : (getSeqNum m address ⟨idx, S⟩).2 address idx = some (c + 1) := by
      have h := getSeqNum_entry_self m address ⟨idx, S⟩
      rw [hval] at h
      exact h
    have hrest := ih (getSeqNum m address ⟨idx, S⟩).2 (c + 1) hent (by omega) (by omega)
    rw [hval, hrest, List.range_succ_eq_map, List.map_cons, List.map_map]
    have hf : ((fun j => c + 1 + j) ∘ Nat.succ) = fun j => c + 1 + 1 + j := by
      funext j
      simp only [Function.comp_apply]
      omega
    rw [hf]

/-- A run of `N + 1` calls with a fixed remote input `S`, from any cache
state whose increments cannot overflow, returns the arithmetic
progression starting at the first call's own return value: the first call
either adopts `S` (no entry, or a smaller entry) or increments a larger
entry, and every later call increments by exactly one. -/
lemma runSeqCalls_fixed_succ (address : Address) (idx : Int) (S N : Nat)
    (m : SeqNumMap)
    (hS : S + (N + 1) ≤ 2 ^ 64)
    (hent : ∀ c, m address idx = some c → c + (N + 1) < 2 ^ 64) :
    (runSeqCalls address idx m (List.replicate (N + 1) S)).1 =
      (List.range (N + 1)).map (fun j => (getSeqNum m address ⟨idx, S⟩).1 + j) := by
  have hv : S ≤ (getSeqNum m address ⟨idx, S⟩).1 ∧
      (getSeqNum m address ⟨idx, S⟩).1 + N < 2 ^ 64 := by
    cases hcase : m address idx with
    | none =>
      have h : (getSeqNum m address ⟨idx, S⟩).1 = S :=
        getSeqNum_of_none m address ⟨idx, S⟩ hcase
      omega
    | some c =>
      by_cases hle : S ≤ c
      · have h : (getSeqNum m address ⟨idx, S⟩).1 = (c + 1) % 2 ^ 64 :=
          getSeqNum_incr_of_le m address ⟨idx, S⟩ c hcase hle
        have hc := hent c hcase
        rw [Nat.mod_eq_of_lt (by omega)] at h
        omega
      · have h : (getSeqNum m address ⟨idx, S⟩).1 = S :=
          getSeqNum_adopt_of_lt m address ⟨idx, S⟩ c hcase (Nat.lt_of_not_le hle)
        omega
  have hentry : (getSeqNum m address ⟨idx, S⟩).2 address idx =
      some (getSeqNum m address ⟨idx, S⟩).1 :=
    getSeqNum_entry_self m address ⟨idx, S⟩
  have hrest := runSeqCalls_incr_run address idx S N
    (getSeqNum m address ⟨idx, S⟩).2 (getSeqNum m address ⟨idx, S⟩).1
    hentry hv.1 hv.2
  rw [List.replicate_succ, runSeqCalls_fst_cons, hrest, List.range_succ_eq_map,
    List.map_cons, List.map_map]
  have hf : ((fun j => (getSeqNum m address ⟨idx, S⟩).1 + j) ∘ Nat.succ) =
      fun j => (getSeqNum m address ⟨idx, S⟩).1 + 1 + j := by
    funext j
    simp only [Function.comp_apply]
    omega
  rw [hf]
  simp

/-- The arithmetic progression `c, c+1, ..., c+n-1` is strictly
increasing. -/
lemma chain_lt_map_add (c n : Nat) :
    List.Chain' (· < ·) ((List.range n).map (fun j => c + j)) :=
  List.Pairwise.chain'
    ((List.pairwise_lt_range n).map (fun j => c + j) fun _ _ h => Nat.add_lt_add_left h c)

/-- The arithmetic progression `c, c+1, ..., c+n-1` has pairwise distinct
elements. -/
lemma pairwise_ne_map_add (c n : Nat) :
    ((List.range n).map (fun j => c + j)).Pairwise (· ≠ ·) :=
  ((List.pairwise_lt_range n).map (fun j => c + j) fun _ _ h =>
    Nat.add_lt_add_left h c).imp fun h => Nat.ne_of_lt h

/-- Consecutive elements of `c, c+1, ..., c+n-1` differ by exactly 1. -/
lemma chain_succ_map_add (c n : Nat) :
    List.Chain' (fun x y => y = x + 1) ((List.range n).map (fun j => c + j)) := by
  rw [List.chain'_map]
  cases n with
  | zero => simp
  | succ k =>
    rw [List.chain'_range_succ]
    intro m hm
    omega

/-! ## Claim C9: 1000 allocations for one pair with a fixed remote value -/

/-- Claim C9, counterexample: with the fixed remote value `2^64 - 1`,
1000 serialized allocation calls for the pair `(1, 0)` (starting with no
cache entry) are not strictly increasing: the first call returns
`2^64 - 1` and the second wraps the `uint64` increment to `0`. -/
theorem seq_allocation_1000_overflow_cex :
    ¬ List.Chain' (· < ·)
      (runSeqCalls 1 0 emptySeqMap (List.replicate 1000 (2 ^ 64 - 1))).1 := by
  intro h
  rw [show (1000 : Nat) = 998 + 1 + 1 from rfl, List.replicate_succ, List.replicate_succ,
    runSeqCalls_fst_cons, runSeqCalls_fst_cons] at h
  have hv1 : (getSeqNum emptySeqMap 1 ⟨0, 2 ^ 64 - 1⟩).1 = 2 ^ 64 - 1 :=
    getSeqNum_of_none emptySeqMap 1 ⟨0, 2 ^ 64 - 1⟩ rfl
  have hent : (getSeqNum emptySeqMap 1 ⟨0, 2 ^ 64 - 1⟩).2 1 0 = some (2 ^ 64 - 1) := by
    have hx := getSeqNum_entry_self emptySeqMap 1 ⟨0, 2 ^ 64 - 1⟩
    rw [hv1] at hx
    exact hx
  have hv2 :
      (getSeqNum (getSeqNum emptySeqMap 1 ⟨0, 2 ^ 64 - 1⟩).2 1 ⟨0, 2 ^ 64 - 1⟩).1 = 0 := by
    rw [getSeqNum_incr_of_le (getSeqNum emptySeqMap 1 ⟨0, 2 ^ 64 - 1⟩).2 1
      ⟨0, 2 ^ 64 - 1⟩ (2 ^ 64 - 1) hent (le_refl _)]
    rw [show 2 ^ 64 - 1 + 1 = 2 ^ 64 from by omega, Nat.mod_self]
  rw [hv1, hv2, List.chain'_cons] at h
  exact absurd h.1 (by omega)

set_option maxRecDepth 4000 in
/-- Claim C9, amended: the 1000 concurrent calls are serialized by the
source's global `seqNumLock`, so they execute as 1000 successive calls in
some order; modelling that serialization, 1000 calls for one pair with a
fixed remote value `S`, from any cache state, return the arithmetic
progression `v, v+1, ..., v+999` starting at the first call's return
value `v` (`S` itself, or `cached + 1` when `cached >= S`) — pairwise
distinct, strictly increasing, every gap exactly 1 — provided no `uint64`
wraparound occurs (`S + 1000 <= 2^64`, and any pre-existing cached value
`c` for the pair has `c + 1000 < 2^64`); with `S = 2^64 - 1` the
increment wraps and strict increase fails. -/
theorem seq_allocation_1000_serialized (address : Address) (idx : Int)
    (m : SeqNumMap) (S : Nat)
    (hS : S + 1000 ≤ 2 ^ 64)
    (hent : ∀ c, m address idx = some c → c + 1000 < 2 ^ 64) :
    (runSeqCalls address idx m (List.replicate 1000 S)).1 =
      (List.range 1000).map (fun j => (getSeqNum m address ⟨idx, S⟩).1 + j) ∧
    List.Chain' (· < ·) (runSeqCalls address idx m (List.replicate 1000 S)).1 ∧
    ((runSeqCalls address idx m (List.replicate 1000 S)).1).Pairwise (· ≠ ·) ∧
    List.Chain' (fun x y => y = x + 1)
      (runSeqCalls address idx m (List.replicate 1000 S)).1 := by
  have hfst := runSeqCalls_fixed_succ address idx S 999 m (by omega)
    (fun c hc => by have := hent c hc; omega)
  rw [show (999 : Nat) + 1 = 1000 from rfl] at hfst
  refine ⟨hfst, ?_, ?_, ?_⟩ <;> rw [hfst]
  · exact chain_lt_map_add _ 1000
  · exact pairwise_ne_map_add _ 1000
  · exact chain_succ_map_add _ 1000

/-- Witness for the amended C9 theorem: a pre-existing cache entry 5 for
the pair and fixed remote value 3 (so the first call increments to 6 and
the run returns 6, 7, ..., 1005). -/
theorem seq_allocation_1000_serialized_witness :
    (3 + 1000 ≤ 2 ^ 64) ∧
    (∀ c, seqSet emptySeqMap 1 0 5 1 0 = some c → c + 1000 < 2 ^ 64) ∧
    ((runSeqCalls 1 0 (seqSet emptySeqMap 1 0 5) (List.replicate 1000 3)).1 =
        (List.range 1000).map
          (fun j => (getSeqNum (seqSet emptySeqMap 1 0 5) 1 ⟨0, 3⟩).1 + j) ∧
      List.Chain' (· < ·)
        (runSeqCalls 1 0 (seqSet emptySeqMap 1 0 5) (List.replicate 1000 3)).1 ∧
      ((runSeqCalls 1 0 (seqSet emptySeqMap 1 0 5) (List.replicate 1000 3)).1).Pairwise
        (· ≠ ·) ∧
      List.Chain' (fun x y => y = x + 1)
        (runSeqCalls 1 0 (seqSet emptySeqMap 1 0 5) (List.replicate 1000 3)).1) :=
  ⟨by norm_num,
    fun c hc => by simp [seqSet, emptySeqMap] at hc; omega,
    seq_allocation_1000_serialized 1 0 (seqSet emptySeqMap 1 0 5) 3 (by norm_num)
      (fun c hc => by simp [seqSet, emptySeqMap] at hc; omega)⟩

/-! ## Claim C10: the rotator value is used as a position in the remote key list -/

/-- Claim C10: `GetProposalKey` uses the value returned by the rotator —
an element of `KeyIndexes`, not a list position — directly as a positional
index into the remote account's `Keys` slice: whenever that value is at
least the number of remote keys the access is out of range and the call
panics (whatever the remote error flag), and whenever it is a valid
position the key at exactly that position is selected and stamped with
the allocator's sequence number. -/
theorem getProposalKey_key_index_positional (a : Account) (m : SeqNumMap)
    (acc : RemoteAccount) (hc : a.nextKeyIndexIndex < a.KeyIndexes.length) :
    ((acc.Keys.length : Int) ≤ a.KeyIndexes.get ⟨a.nextKeyIndexIndex, hc⟩ →
      ∀ oe : Option String,
        (GetProposalKey a m ⟨some acc, oe⟩).1 = .panicked .indexOutOfRange) ∧
    (∀ hin : 0 ≤ a.KeyIndexes.get ⟨a.nextKeyIndexIndex, hc⟩ ∧
        (a.KeyIndexes.get ⟨a.nextKeyIndexIndex, hc⟩).toNat < acc.Keys.length,
      (GetProposalKey a m ⟨some acc, none⟩).1 =
        .ok { acc.Keys.get ⟨(a.KeyIndexes.get ⟨a.nextKeyIndexIndex, hc⟩).toNat, hin.2⟩ with
          SequenceNumber := (getSeqNum m a.Address
            (acc.Keys.get ⟨(a.KeyIndexes.get ⟨a.nextKeyIndexIndex, hc⟩).toNat, hin.2⟩)).1 }) := by
  constructor
  · intro hge oe
    simp only [GetProposalKey, KeyIndex_ok' a hc]
    rw [dif_neg (by intro hcon; omega)]
  · intro hin
    simp only [GetProposalKey, KeyIndex_ok' a hc]
    rw [dif_pos hin]

/-- Witness for C10: account configured with the single key index 5 while
the remote account has only 2 keys; the call panics with an out-of-range
index. -/
theorem getProposalKey_key_index_positional_witness :
    (0 < ([(5 : Int)] : List Int).length) ∧
    ((([⟨0, 11⟩, ⟨1, 22⟩] : List AccountKey).length : Int) ≤ 5) ∧
    (GetProposalKey ⟨1, "", [5], 0⟩ emptySeqMap
        ⟨some ⟨[⟨0, 11⟩, ⟨1, 22⟩]⟩, none⟩).1 = .panicked .indexOutOfRange :=
  ⟨by decide, by decide,
    (getProposalKey_key_index_positional ⟨1, "", [5], 0⟩ emptySeqMap
      ⟨[⟨0, 11⟩, ⟨1, 22⟩]⟩ (by decide)).1 (by decide) none⟩
